import Mathlib

/-
Verification of the hybrid n-gram / neural text-generation frontend.

Each definition below is a shallow embedding of a function of the
TypeScript sources: JavaScript numbers are modelled by rationals (ℚ) or
integers, strings of code points by lists of naturals, fallible calls by
Except, and the stateful stores by explicit state-passing functions.
-/

set_option autoImplicit false

namespace LLMSpec

/-! ## Markov weight normalization

Embeds the weight-normalization block of `generate` in the generation
store (src/unnamed/part_018, lines 92–99); the same computation appears
in `handleGenerate` (src/frontend/src/pages/Generate.tsx, lines 44–60):

    const markovTotal = params.bigram_weight + params.trigram_weight + params.tetragram_weight;
    bigram_weight: markovTotal > 0 ? params.bigram_weight / markovTotal : 0.33,
    trigram_weight: markovTotal > 0 ? params.trigram_weight / markovTotal : 0.33,
    tetragram_weight: markovTotal > 0 ? params.tetragram_weight / markovTotal : 0.34,
-/

def normalizeMarkovWeights (b t q : ℚ) : ℚ × ℚ × ℚ :=
  let markovTotal := b + t + q
  if 0 < markovTotal then (b / markovTotal, t / markovTotal, q / markovTotal)
  else (33/100, 33/100, 34/100)

/-! ## Text cleaning for training statistics

Embeds the cleaning step of `TrainingService.calculateStats`
(src/frontend/src/services/training.service.ts, lines 242–252):

    const cleanedText = text.toUpperCase().replace(/[^A-Z ]/g, '');

Characters are modelled by their code points (space = 32, A–Z = 65–90,
a–z = 97–122). -/

def jsToUpper (c : ℕ) : ℕ :=
  if 97 ≤ c ∧ c ≤ 122 then c - 32 else c

def inAlphabetB (c : ℕ) : Bool :=
  decide ((65 ≤ c ∧ c ≤ 90) ∨ c = 32)

def cleanText (s : List ℕ) : List ℕ :=
  (s.map jsToUpper).filter inAlphabetB

theorem jsToUpper_of_inAlphabet {c : ℕ} (h : inAlphabetB c = true) : jsToUpper c = c := by
  simp only [inAlphabetB, decide_eq_true_eq] at h
  unfold jsToUpper
  rcases h with ⟨h1, h2⟩ | h3
  · rw [if_neg]; omega
  · subst h3; decide

theorem filter_sublist_cleanText (s : List ℕ) :
    List.Sublist (s.filter inAlphabetB) (cleanText s) := by
  induction s with
  | nil => simp [cleanText]
  | cons c cs ih =>
    by_cases hc : inAlphabetB c = true
    · have hcu : jsToUpper c = c := jsToUpper_of_inAlphabet hc
      simp only [cleanText, List.map_cons, List.filter_cons, hcu, hc]
      exact ih.cons₂ c
    · have hc' : inAlphabetB c = false := by
        cases h : inAlphabetB c
        · rfl
        · exact absurd h hc
      simp only [cleanText, List.map_cons, List.filter_cons, hc']
      by_cases hu : inAlphabetB (jsToUpper c) = true
      · simp only [hu, if_pos]
        exact ih.cons (jsToUpper c)
      · have hu' : inAlphabetB (jsToUpper c) = false := by
          cases h : inAlphabetB (jsToUpper c)
          · rfl
          · exact absurd h hu
        simpa [hu'] using ih

/-- C1: for every non-negative weight triple with positive sum s, the weights
actually used are bigram/s, trigram/s, tetragram/s, which sum to 1, and any
positive scalar multiple of a triple normalizes to the identical weights. -/
theorem C1_markov_weights_normalized (b t q : ℚ)
    (hb : 0 ≤ b) (ht : 0 ≤ t) (hq : 0 ≤ q) (hs : 0 < b + t + q) :
    normalizeMarkovWeights b t q = (b / (b + t + q), t / (b + t + q), q / (b + t + q)) ∧
    b / (b + t + q) + t / (b + t + q) + q / (b + t + q) = 1 ∧
    ∀ c : ℚ, 0 < c → normalizeMarkovWeights (c * b) (c * t) (c * q) =
      normalizeMarkovWeights b t q := by
  have hne : b + t + q ≠ 0 := ne_of_gt hs
  refine ⟨by simp [normalizeMarkovWeights, hs], ?_, ?_⟩
  · field_simp
  · intro c hc
    have hcs : (0:ℚ) < c * b + c * t + c * q := by
      have : c * b + c * t + c * q = c * (b + t + q) := by ring
      rw [this]; exact mul_pos hc hs
    have hcne : c ≠ 0 := ne_of_gt hc
    simp only [normalizeMarkovWeights, if_pos hs, if_pos hcs]
    have hsum : c * b + c * t + c * q = c * (b + t + q) := by ring
    rw [hsum]
    refine congrArg₂ Prod.mk ?_ (congrArg₂ Prod.mk ?_ ?_) <;>
      rw [mul_div_mul_left _ _ hcne]

/-- Witness for C1 at the spec's own example: the unnormalized triple {1,1,1}
and the normalized triple {1/3,1/3,1/3} yield identical used weights. -/
theorem C1_markov_weights_normalized_witness :
    normalizeMarkovWeights (3 * (1/3)) (3 * (1/3)) (3 * (1/3)) =
      normalizeMarkovWeights (1/3) (1/3) (1/3) ∧
    normalizeMarkovWeights 1 1 1 = (1/3, 1/3, 1/3) := by
  constructor
  · exact (C1_markov_weights_normalized (1/3) (1/3) (1/3) (by norm_num) (by norm_num)
      (by norm_num) (by norm_num)).2.2 3 (by norm_num)
  · simp [normalizeMarkovWeights]
    norm_num

/-- C7: cleaning a raw string (uppercasing, then deleting every code point that
is not an uppercase letter A–Z or a space) yields a string whose every
character lies in the 27-symbol alphabet, and the characters of the input that
were already in the alphabet survive, in their original order. -/
theorem C7_cleanText_alphabet (s : List ℕ) :
    (∀ c ∈ cleanText s, inAlphabetB c = true) ∧
    List.Sublist (s.filter inAlphabetB) (cleanText s) := by
  constructor
  · intro c hc
    exact List.of_mem_filter hc
  · exact filter_sublist_cleanText s

/-- Witness for C7 on the concrete input "Hi, A z!" (code points): every
cleaned character is in the alphabet. -/
theorem C7_cleanText_alphabet_witness :
    ∀ c ∈ cleanText [72, 105, 44, 32, 65, 32, 122, 33], inAlphabetB c = true :=
  (C7_cleanText_alphabet [72, 105, 44, 32, 65, 32, 122, 33]).1

/-! ## Generation service

Embeds `GenerationService` (src/README_SETUP.md, generation.service source):
the `GenerationRequest` interface, `validateGenerationParams`, `generateText`
and `calculateQualityScore`. Optional request fields are `Option`s; the HTTP
client is modelled as a function from the posted payload to an `Except`
outcome, `ApiError` being the client's error type. -/

structure GenerationRequest where
  prompt : Option String
  temperature : Option ℚ
  max_tokens : Option ℤ
  top_p : Option ℚ
  model : Option String
  neural_weight : Option ℚ
  bigram_weight : Option ℚ
  trigram_weight : Option ℚ
  tetragram_weight : Option ℚ

/-- The field names of the `GenerationRequest` interface, in declaration
order. -/
def GenerationRequest.fieldNames : List String :=
  ["prompt", "temperature", "max_tokens", "top_p", "model",
   "neural_weight", "bigram_weight", "trigram_weight", "tetragram_weight"]

structure GenerationResponse where
  generated_text : String
  valid_mask : Option (List Bool)

structure ApiError where
  message : String

/-- The body posted to /api/generate, after the defaulting in
`generateText` (`params.temperature ?? 0.7`, etc.). -/
structure GenerationPayload where
  prompt : String
  temperature : ℚ
  max_tokens : ℤ
  top_p : ℚ
  model : String
  neural_weight : ℚ
  bigram_weight : ℚ
  trigram_weight : ℚ
  tetragram_weight : ℚ

def buildPayload (p : GenerationRequest) : GenerationPayload where
  prompt := p.prompt.getD ""
  temperature := p.temperature.getD (7/10)
  max_tokens := p.max_tokens.getD 100
  top_p := p.top_p.getD (9/10)
  model := p.model.getD "default"
  neural_weight := p.neural_weight.getD (4/5)
  bigram_weight := p.bigram_weight.getD (1/5)
  trigram_weight := p.trigram_weight.getD (3/10)
  tetragram_weight := p.tetragram_weight.getD (1/2)

/-- Embeds `GenerationService.validateGenerationParams`: a list of error
strings, empty when the parameters pass. -/
def validateGenerationParams (p : GenerationRequest) : List String :=
  (match p.temperature with
   | some t => if t < 0 ∨ 2 < t then ["Temperature must be between 0 and 2"] else []
   | none => []) ++
  (match p.max_tokens with
   | some m => if m < 1 ∨ 10000 < m then ["Max tokens must be between 1 and 10,000"] else []
   | none => []) ++
  (match p.top_p with
   | some tp => if tp < 0 ∨ 1 < tp then ["Top-p must be between 0 and 1"] else []
   | none => [])

/-- Embeds `GenerationService.generateText`. The first component records
whether the HTTP request was issued; the second is the returned response or
the thrown error message. Validation failures throw before the request is
issued; an `ApiError` from the client is rethrown wrapped as
"Generation failed: …". -/
def generateText (p : GenerationRequest)
    (api : GenerationPayload → Except ApiError GenerationResponse) :
    Bool × Except String GenerationResponse :=
  let errors := validateGenerationParams p
  if errors = [] then
    match api (buildPayload p) with
    | .ok r => (true, .ok r)
    | .error e => (true, .error ("Generation failed: " ++ e.message))
  else
    (false, .error (String.intercalate ", " errors))

/-- Embeds `GenerationService.calculateQualityScore`. `jsRound` is
JavaScript's `Math.round` (round half towards +∞). -/
def jsRound (x : ℚ) : ℤ := ⌊x + 1/2⌋

def calculateQualityScore (validMask : Option (List Bool)) : ℤ :=
  match validMask with
  | none => 100
  | some [] => 100
  | some l => jsRound ((l.count true : ℚ) / (l.length : ℚ) * 100)

/-- A request whose temperature is exactly 0 and whose other fields are
absent. -/
def zeroTempRequest : GenerationRequest :=
  ⟨none, some 0, none, none, none, none, none, none, none⟩

/-- A request whose temperature is −1 and whose other fields are absent. -/
def negTempRequest : GenerationRequest :=
  ⟨none, some (-1), none, none, none, none, none, none, none⟩

theorem validate_ne_nil_of_neg_temp (p : GenerationRequest) (t : ℚ)
    (hpt : p.temperature = some t) (hlt : t < 0) :
    validateGenerationParams p ≠ [] := by
  unfold validateGenerationParams
  simp [hpt, hlt]

/-- C2 counterexample: a request with temperature exactly 0 passes parameter
validation with no errors, and `generateText` issues the HTTP request (the
first component is `true`), so generation is performed rather than failing
synchronously. -/
theorem C2_zero_temperature_counterexample :
    validateGenerationParams zeroTempRequest = [] ∧
    (generateText zeroTempRequest
      (fun _ => Except.ok ⟨"OK", none⟩)).1 = true := by
  constructor <;> rfl

/-- C2 amended: every generation request whose temperature is strictly
negative fails validation, and `generateText` throws synchronously before
issuing any request (temperature 0, however, passes validation). -/
theorem C2_negative_temperature_rejected (p : GenerationRequest)
    (api : GenerationPayload → Except ApiError GenerationResponse) (t : ℚ)
    (hpt : p.temperature = some t) (hlt : t < 0) :
    validateGenerationParams p ≠ [] ∧
    (generateText p api).1 = false ∧
    ∃ msg, (generateText p api).2 = Except.error msg := by
  have hne := validate_ne_nil_of_neg_temp p t hpt hlt
  refine ⟨hne, ?_, ?_⟩
  · simp [generateText, if_neg hne]
  · exact ⟨String.intercalate ", " (validateGenerationParams p),
      by simp [generateText, if_neg hne]⟩

/-- Witness for C2 amended, at temperature −1. -/
theorem C2_negative_temperature_rejected_witness :
    negTempRequest.temperature = some (-1) ∧ (-1 : ℚ) < 0 ∧
    validateGenerationParams negTempRequest ≠ [] :=
  ⟨rfl, by norm_num,
    (C2_negative_temperature_rejected negTempRequest
      (fun _ => Except.ok ⟨"OK", none⟩) (-1) rfl (by norm_num)).1⟩

/-- C3 counterexample: the generation request interface has no `seed`
parameter, so the sampling seed is not an explicit parameter of a generation
request. -/
theorem C3_no_seed_field_counterexample :
    ("seed" ∈ GenerationRequest.fieldNames) = False :=
  eq_false (by decide)

/-- C3 amended: the parameters of a generation request are exactly prompt,
temperature, max_tokens, top_p, model and the four blending weights; no seed
parameter exists, so seeded reproducibility cannot be requested per call. -/
theorem C3_request_fields_no_seed :
    GenerationRequest.fieldNames =
      ["prompt", "temperature", "max_tokens", "top_p", "model",
       "neural_weight", "bigram_weight", "trigram_weight", "tetragram_weight"] ∧
    "seed" ∉ GenerationRequest.fieldNames := by
  exact ⟨rfl, by decide⟩

/-- C6: `generateText` either returns the full API response or throws: when
validation reports errors it throws without issuing the request; a returned
response is exactly the API's response; an API error is rethrown as an error
with no partial result. -/
theorem C6_generateText_all_or_nothing (p : GenerationRequest)
    (api : GenerationPayload → Except ApiError GenerationResponse) :
    (validateGenerationParams p ≠ [] →
      (generateText p api).1 = false ∧
      ∃ msg, (generateText p api).2 = Except.error msg) ∧
    (∀ r, (generateText p api).2 = Except.ok r → api (buildPayload p) = Except.ok r) ∧
    (validateGenerationParams p = [] → ∀ e, api (buildPayload p) = Except.error e →
      (generateText p api).2 = Except.error ("Generation failed: " ++ e.message)) ∧
    ((∃ r, (generateText p api).2 = Except.ok r) ∨
      (∃ msg, (generateText p api).2 = Except.error msg)) := by
  by_cases hv : validateGenerationParams p = []
  · cases hapi : api (buildPayload p) with
    | ok r =>
      have hg : generateText p api = (true, Except.ok r) := by
        simp [generateText, hv, hapi]
      refine ⟨fun h => absurd hv h, ?_, ?_, ?_⟩
      · intro r' hr'
        rw [hg] at hr'
        simp at hr'
        rw [hr']
      · intro _ e he
        exact Except.noConfusion he
      · exact Or.inl ⟨r, by rw [hg]⟩
    | error e =>
      have hg : generateText p api =
          (true, Except.error ("Generation failed: " ++ e.message)) := by
        simp [generateText, hv, hapi]
      refine ⟨fun h => absurd hv h, ?_, ?_, ?_⟩
      · intro r' hr'
        rw [hg] at hr'
        simp at hr'
      · intro _ e' he'
        injection he' with h
        rw [hg, ← h]
      · exact Or.inr ⟨"Generation failed: " ++ e.message, by rw [hg]⟩
  · have hg : generateText p api =
        (false, Except.error (String.intercalate ", " (validateGenerationParams p))) := by
      simp [generateText, hv]
    refine ⟨fun _ => ⟨by rw [hg], ⟨String.intercalate ", " (validateGenerationParams p),
      by rw [hg]⟩⟩, ?_, ?_, ?_⟩
    · intro r hr
      rw [hg] at hr
      simp at hr
    · intro h
      exact absurd h hv
    · exact Or.inr ⟨String.intercalate ", " (validateGenerationParams p), by rw [hg]⟩

/-- Witness for C6: a failing API call on an empty request is rethrown as a
"Generation failed" error. -/
theorem C6_generateText_all_or_nothing_witness :
    (generateText ⟨none, none, none, none, none, none, none, none, none⟩
      (fun _ => Except.error ⟨"boom"⟩)).2 =
      Except.error ("Generation failed: " ++ "boom") :=
  (C6_generateText_all_or_nothing
    ⟨none, none, none, none, none, none, none, none, none⟩
    (fun _ => Except.error ⟨"boom"⟩)).2.2.1 rfl ⟨"boom"⟩ rfl

/-! ## Generation store statistics and history

Embeds the statistics block of `generate` in the generation store
(src/unnamed/part_018, lines 103–108, 121–134 and 145–160):

    const totalWords = validMask.length > 0 ? validMask.length : words.length;
    const validPercentage = totalWords > 0 ? (validCount / totalWords) * 100 : 0;
    const newHistory = [result, ...currentHistory].slice(0, MAX_HISTORY);

and, on the restore path, history.slice(0, MAX_HISTORY) is passed to
setState. -/

def genTotalWords (wordsLen : ℕ) (validMask : List Bool) : ℕ :=
  if 0 < validMask.length then validMask.length else wordsLen

def genValidPercentage (wordsLen : ℕ) (validMask : List Bool) : ℚ :=
  let validCount := validMask.count true
  let totalWords := genTotalWords wordsLen validMask
  if 0 < totalWords then ((validCount : ℚ) / (totalWords : ℚ)) * 100 else 0

def MAX_HISTORY : ℕ := 50

def updateHistory {α : Type} (result : α) (history : List α) : List α :=
  (result :: history).take MAX_HISTORY

def restoreHistory {α : Type} (saved : List α) : List α :=
  saved.take MAX_HISTORY

/-- C9: the quality score is total and never divides by zero: a missing or
empty validity mask scores 100; a non-empty mask scores
round(100·valid/length), always between 0 and 100; and the generation store's
validPercentage is 0 whenever the word total is 0. -/
theorem C9_quality_score_safe (wordsLen : ℕ) (m l : List Bool) :
    calculateQualityScore none = 100 ∧
    calculateQualityScore (some []) = 100 ∧
    (l ≠ [] →
      calculateQualityScore (some l) =
        jsRound ((l.count true : ℚ) / (l.length : ℚ) * 100) ∧
      0 ≤ calculateQualityScore (some l) ∧ calculateQualityScore (some l) ≤ 100) ∧
    (genTotalWords wordsLen m = 0 → genValidPercentage wordsLen m = 0) := by
  refine ⟨rfl, rfl, ?_, ?_⟩
  · intro hl
    obtain ⟨a, l', rfl⟩ := List.exists_cons_of_ne_nil hl
    have hq : calculateQualityScore (some (a :: l')) =
        jsRound (((a :: l').count true : ℚ) / ((a :: l').length : ℚ) * 100) := rfl
    have hlen : (0:ℚ) < ((a :: l').length : ℚ) := by
      have h1 : 0 < (a :: l').length := List.length_pos.mpr (List.cons_ne_nil a l')
      exact_mod_cast h1
    have hcount : ((a :: l').count true : ℚ) ≤ ((a :: l').length : ℚ) := by
      exact_mod_cast List.count_le_length true (a :: l')
    have hcount0 : (0:ℚ) ≤ ((a :: l').count true : ℚ) := by positivity
    have h0 : (0:ℚ) ≤ ((a :: l').count true : ℚ) / ((a :: l').length : ℚ) * 100 := by
      positivity
    have hdiv : ((a :: l').count true : ℚ) / ((a :: l').length : ℚ) ≤ 1 :=
      (div_le_one hlen).mpr hcount
    have hle : ((a :: l').count true : ℚ) / ((a :: l').length : ℚ) * 100 ≤ 100 := by
      nlinarith
    refine ⟨hq, ?_, ?_⟩
    · rw [hq]
      unfold jsRound
      exact Int.le_floor.mpr (by push_cast; linarith)
    · rw [hq]
      unfold jsRound
      have hlt : ((a :: l').count true : ℚ) / ((a :: l').length : ℚ) * 100 + 1/2 <
          ((101:ℤ) : ℚ) := by push_cast; linarith
      have hfl := Int.floor_lt.mpr hlt
      omega
  · intro h
    unfold genValidPercentage
    simp [h]

/-- Witness for C9 at the mask [true, false]: the score is round(50) = 50. -/
theorem C9_quality_score_safe_witness :
    calculateQualityScore (some [true, false]) =
      jsRound (((([true, false] : List Bool).count true : ℚ)) /
        ((([true, false] : List Bool).length : ℚ)) * 100) ∧
    calculateQualityScore (some [true, false]) = 50 := by
  constructor
  · exact ((C9_quality_score_safe 0 [] [true, false]).2.2.1 (by simp)).1
  · norm_num [calculateQualityScore, jsRound]

/-- C10: after a completed generate action the new result is the head of the
stored history and the history never exceeds 50 entries, only entries beyond
position 50 being dropped; the restore path enforces the same 50-entry
bound. -/
theorem C10_history_bounded {α : Type} (r : α) (h saved : List α) :
    (updateHistory r h).head? = some r ∧
    (updateHistory r h).length ≤ MAX_HISTORY ∧
    (∀ i : ℕ, i < MAX_HISTORY → (updateHistory r h).get? i = (r :: h).get? i) ∧
    (restoreHistory saved).length ≤ MAX_HISTORY := by
  refine ⟨?_, ?_, ?_, ?_⟩
  · rfl
  · simpa [updateHistory] using List.length_take_le MAX_HISTORY (r :: h)
  · intro i hi
    exact List.get?_take hi
  · simpa [restoreHistory] using List.length_take_le MAX_HISTORY saved

/-- Witness for C10 at a concrete three-entry history. -/
theorem C10_history_bounded_witness :
    (updateHistory (7:ℕ) [1, 2, 3]).head? = some 7 ∧
    (updateHistory (7:ℕ) [1, 2, 3]).length ≤ MAX_HISTORY :=
  ⟨(C10_history_bounded 7 [1, 2, 3] []).1, (C10_history_bounded 7 [1, 2, 3] []).2.1⟩

/-! ## Training progress statuses and the polling loop

Embeds the `TrainingProgress` interface of
src/frontend/src/services/training.service.ts (lines 20–25), whose status
union is 'queued' | 'running' | 'success' | 'error', and the polling tick of
`startPolling` in the training store (src/unnamed/part_020, lines 22–55).
The fetch outcome of a tick is modelled by `PollFetch`; the response body is
`ProgressData`, its status field carrying a `TrainingProgress` status when
present. -/

/-- The values of the status union of `TrainingProgress`. -/
def trainingProgressStatusValues : List String :=
  ["queued", "running", "success", "error"]

/-- The status union of `TrainingProgress` as a type. -/
inductive TPStatus
  | queued
  | running
  | success
  | error
deriving DecidableEq

/-- The status union of the training store (part_020, line 6). -/
inductive TStatus
  | idle
  | queued
  | running
  | success
  | error
deriving DecidableEq

def TPStatus.toStoreStatus : TPStatus → TStatus
  | .queued => .queued
  | .running => .running
  | .success => .success
  | .error => .error

structure TrainState where
  jobId : Option String
  progress : ℚ
  message : String
  status : TStatus
  polling : Bool

structure ProgressData where
  progress : Option ℚ
  message : Option String
  status : Option TPStatus

inductive PollFetch
  | httpOk (d : ProgressData)
  | http404
  | httpErr
  | netErr

/-- Embeds one tick of the polling interval in `startPolling` (part_020,
lines 24–54): a terminal or job-less state stops polling and returns; 404
marks the job an error and stops; other HTTP errors and network errors keep
polling; a successful fetch updates progress/message/status, stopping when
the reported status is terminal or progress reached 100. -/
def pollTick (s : TrainState) (f : PollFetch) : TrainState :=
  if s.jobId = none ∨ s.status = TStatus.success ∨ s.status = TStatus.error then
    { s with polling := false }
  else
    match f with
    | .http404 =>
        { s with status := TStatus.error, message := "Job not found",
                 progress := 100, polling := false }
    | .httpErr => s
    | .netErr => s
    | .httpOk d =>
        let doneStatus : Bool :=
          match d.status with
          | some st => st == TPStatus.success || st == TPStatus.error
          | none => false
        let doneProgress : Bool :=
          match d.progress with
          | some p => decide (100 ≤ p)
          | none => false
        let done := doneStatus || doneProgress
        { s with
          progress := d.progress.getD 0,
          message := d.message.getD "",
          status := if done then (d.status.getD TPStatus.success).toStoreStatus
                    else TStatus.running,
          polling := if done then false else s.polling }

/-- C5: every status the progress-query interface reports lies in
queued/running/paused/success/error, and success and error are absorbing:
once the stored status is terminal a polling tick stops polling and leaves
the job record untouched, and a tick that receives a terminal reported
status stops polling. -/
theorem C5_training_status_terminal_absorbing (s : TrainState) (f : PollFetch)
    (d : ProgressData) :
    (∀ v ∈ trainingProgressStatusValues,
      v ∈ ["queued", "running", "paused", "success", "error"]) ∧
    ((s.status = TStatus.success ∨ s.status = TStatus.error) →
      pollTick s f = { s with polling := false }) ∧
    ((d.status = some TPStatus.success ∨ d.status = some TPStatus.error) →
      (pollTick s (.httpOk d)).polling = false) := by
  refine ⟨by decide, ?_, ?_⟩
  · intro h
    unfold pollTick
    rw [if_pos (Or.inr h)]
  · intro h
    unfold pollTick
    by_cases hg : s.jobId = none ∨ s.status = TStatus.success ∨ s.status = TStatus.error
    · rw [if_pos hg]
    · rw [if_neg hg]
      have hds : (match d.status with
          | some st => st == TPStatus.success || st == TPStatus.error
          | none => false) = true := by
        rcases h with h | h <;> rw [h] <;> rfl
      simp only [hds, Bool.true_or, if_pos]

/-- Witness for C5: a terminal state is left unchanged by a network-error
tick, and a tick reporting success stops polling. -/
theorem C5_training_status_terminal_absorbing_witness :
    pollTick ⟨some "job-1", 100, "done", TStatus.success, true⟩ PollFetch.netErr =
      { jobId := some "job-1", progress := 100, message := "done",
        status := TStatus.success, polling := false } ∧
    (pollTick ⟨some "job-1", 50, "half", TStatus.running, true⟩
      (PollFetch.httpOk ⟨some 100, some "done", some TPStatus.success⟩)).polling = false :=
  ⟨(C5_training_status_terminal_absorbing
      ⟨some "job-1", 100, "done", TStatus.success, true⟩ PollFetch.netErr
      ⟨none, none, none⟩).2.1 (Or.inl rfl),
   (C5_training_status_terminal_absorbing
      ⟨some "job-1", 50, "half", TStatus.running, true⟩ PollFetch.netErr
      ⟨some 100, some "done", some TPStatus.success⟩).2.2 (Or.inl rfl)⟩

/-! ## N-gram probability distributions

The backend n-gram model itself is not among the frontend sources; it is
modelled from the spec (§4.1). Symbols of the fixed 27-symbol alphabet are
`Fin 27` (26 uppercase letters plus the word-separator). -/

abbrev Sym := Fin 27

/-- Modelled from the spec: the backend N-gram Model's per-(order, context,
next-symbol) cumulative counts, which the repository's sources only call
through the HTTP layer. -/
structure NGramModel where
  count : ℕ → List Sym → Sym → ℕ

/-- The total number of observations for a context at an order. -/
def contextTotal (m : NGramModel) (order : ℕ) (ctx : List Sym) : ℕ :=
  ∑ s : Sym, m.count order ctx s

/-- Modelled from the spec: `probabilities(order, context)` returns
count(context,s)/Σ count(context,·), the uniform distribution when the
context has zero observations, and an InvalidArgument error for an order
outside {2,3,4}. -/
def probabilities (m : NGramModel) (order : ℕ) (ctx : List Sym) :
    Except String (Sym → ℚ) :=
  if order = 2 ∨ order = 3 ∨ order = 4 then
    Except.ok (fun s =>
      if contextTotal m order ctx = 0 then 1 / 27
      else (m.count order ctx s : ℚ) / (contextTotal m order ctx : ℚ))
  else Except.error "InvalidArgument: order must be 2, 3, or 4"

/-- C4: for every valid order and context, `probabilities` succeeds with a
distribution over the 27-symbol alphabet summing exactly to 1; with at least
one observation each symbol's probability is count/total, and with zero
observations the distribution is uniform. -/
theorem C4_probabilities_normalized (m : NGramModel) (order : ℕ) (ctx : List Sym)
    (h : order = 2 ∨ order = 3 ∨ order = 4) :
    ∃ d : Sym → ℚ, probabilities m order ctx = Except.ok d ∧
      (∑ s : Sym, d s) = 1 ∧
      (0 < contextTotal m order ctx → ∀ s : Sym,
        d s = (m.count order ctx s : ℚ) / (contextTotal m order ctx : ℚ)) ∧
      (contextTotal m order ctx = 0 → ∀ s : Sym, d s = 1 / 27) := by
  refine ⟨fun s =>
      if contextTotal m order ctx = 0 then 1 / 27
      else (m.count order ctx s : ℚ) / (contextTotal m order ctx : ℚ),
    ?_, ?_, ?_, ?_⟩
  · rw [probabilities, if_pos h]
  · by_cases h0 : contextTotal m order ctx = 0
    · simp only [h0, if_pos]
      rw [Finset.sum_const, Finset.card_univ, Fintype.card_fin, nsmul_eq_mul]
      norm_num
    · simp only [h0, if_neg, ite_false]
      have hT : ((contextTotal m order ctx : ℚ)) ≠ 0 := by
        exact_mod_cast h0
      have hsum : ∑ s : Sym, (m.count order ctx s : ℚ) =
          ((contextTotal m order ctx : ℚ)) := by
        rw [contextTotal]
        push_cast
        rfl
      rw [← Finset.sum_div, hsum, div_self hT]
  · intro hpos s
    have h0 : contextTotal m order ctx ≠ 0 := Nat.pos_iff_ne_zero.mp hpos
    simp [h0]
  · intro h0 s
    simp [h0]

/-- Witness for C4: on the empty model at order 2 the distribution exists and
is the uniform one. -/
theorem C4_probabilities_normalized_witness :
    (2 = 2 ∨ 2 = 3 ∨ 2 = 4) ∧
    ∃ d : Sym → ℚ, probabilities ⟨fun _ _ _ => 0⟩ 2 [] = Except.ok d ∧
      (∑ s : Sym, d s) = 1 ∧
      (0 < contextTotal ⟨fun _ _ _ => 0⟩ 2 [] → ∀ s : Sym,
        d s = ((NGramModel.mk (fun _ _ _ => 0)).count 2 [] s : ℚ) /
          (contextTotal ⟨fun _ _ _ => 0⟩ 2 [] : ℚ)) ∧
      (contextTotal ⟨fun _ _ _ => 0⟩ 2 [] = 0 → ∀ s : Sym, d s = 1 / 27) :=
  ⟨Or.inl rfl, C4_probabilities_normalized ⟨fun _ _ _ => 0⟩ 2 [] (Or.inl rfl)⟩

/-! ## Polling manager

Embeds `PollingManager` (src/frontend/src/store/polling.ts, lines 8–81).
The state carries the `intervals` map (association list jobId → interval
handle), the `active` set (as a list), and additionally the multiset of
interval handles that were created by `setInterval` and not yet cleared
(`live`), which is the real-world resource the class manages; `fresh` is the
next unused handle. `start` first calls `stop` for the jobId, then creates a
fresh interval; `stop` clears the registered interval (if any) and removes
the jobId from both containers; `stopAll` stops every registered jobId. -/

structure PMState where
  intervals : List (String × ℕ)
  active : List String
  live : List (String × ℕ)
  fresh : ℕ

def mapGet : List (String × ℕ) → String → Option ℕ
  | [], _ => none
  | (k, v) :: rest, j => if k = j then some v else mapGet rest j

def mapDelete (m : List (String × ℕ)) (j : String) : List (String × ℕ) :=
  m.filter (fun p => p.1 != j)

def pmStop (j : String) (s : PMState) : PMState :=
  match mapGet s.intervals j with
  | some tok =>
      { s with
        live := s.live.erase (j, tok),
        intervals := mapDelete s.intervals j,
        active := s.active.filter (fun k => k != j) }
  | none => { s with active := s.active.filter (fun k => k != j) }

def pmStart (j : String) (s : PMState) : PMState :=
  let s1 := pmStop j s
  { intervals := (j, s1.fresh) :: s1.intervals,
    active := if j ∈ s1.active then s1.active else j :: s1.active,
    live := (j, s1.fresh) :: s1.live,
    fresh := s1.fresh + 1 }

def pmStopAll (s : PMState) : PMState :=
  (s.intervals.map Prod.fst).foldl (fun st j => pmStop j st) s

def isPolling (j : String) (s : PMState) : Bool :=
  decide (j ∈ s.active)

def pmInit : PMState := ⟨[], [], [], 0⟩

inductive PMOp
  | start (j : String)
  | stop (j : String)
  | stopAll

def pmApply (s : PMState) : PMOp → PMState
  | .start j => pmStart j s
  | .stop j => pmStop j s
  | .stopAll => pmStopAll s

def pmRun (ops : List PMOp) : PMState := ops.foldl pmApply pmInit

/-- The polling manager's state invariant: the live interval handles are
exactly the registered ones, registered keys are unique, and the active set
holds exactly the registered jobIds. -/
def PMInv (s : PMState) : Prop :=
  s.live = s.intervals ∧
  (s.intervals.map Prod.fst).Nodup ∧
  (∀ j : String, j ∈ s.active ↔ ∃ t, (j, t) ∈ s.intervals)

theorem mapGet_eq_none {m : List (String × ℕ)} {j : String}
    (h : mapGet m j = none) : ∀ t, (j, t) ∉ m := by
  induction m with
  | nil => intro t ht; exact absurd ht (List.not_mem_nil _)
  | cons p rest ih =>
    obtain ⟨k, v⟩ := p
    intro t ht
    by_cases hk : k = j
    · rw [mapGet, if_pos hk] at h
      exact Option.noConfusion h
    · rw [mapGet, if_neg hk] at h
      rcases List.mem_cons.mp ht with heq | hmem
      · exact hk (congrArg Prod.fst heq).symm
      · exact ih h t hmem

theorem mapGet_mem {m : List (String × ℕ)} {j : String} {t : ℕ}
    (h : mapGet m j = some t) : (j, t) ∈ m := by
  induction m with
  | nil => exact Option.noConfusion h
  | cons p rest ih =>
    obtain ⟨k, v⟩ := p
    by_cases hk : k = j
    · rw [mapGet, if_pos hk] at h
      injection h with hv
      subst hk; subst hv
      exact List.mem_cons_self _ _
    · rw [mapGet, if_neg hk] at h
      exact List.mem_cons_of_mem _ (ih h)

theorem mem_mapDelete {m : List (String × ℕ)} {j k : String} {t : ℕ} :
    (k, t) ∈ mapDelete m j ↔ (k, t) ∈ m ∧ k ≠ j := by
  simp [mapDelete, List.mem_filter]

theorem mapDelete_of_not_mem {m : List (String × ℕ)} {j : String}
    (h : j ∉ m.map Prod.fst) : mapDelete m j = m := by
  apply List.filter_eq_self.mpr
  intro p hp
  have : p.1 ≠ j := fun he => h (he ▸ List.mem_map_of_mem Prod.fst hp)
  simpa using this

theorem erase_eq_mapDelete {m : List (String × ℕ)} {j : String} {t : ℕ}
    (hnd : (m.map Prod.fst).Nodup) (hmem : (j, t) ∈ m) :
    m.erase (j, t) = mapDelete m j := by
  induction m with
  | nil => exact absurd hmem (List.not_mem_nil _)
  | cons p rest ih =>
    obtain ⟨k, v⟩ := p
    rw [List.map_cons, List.nodup_cons] at hnd
    by_cases hk : k = j
    · subst hk
      have hrest : ∀ u, (k, u) ∉ rest := by
        intro u hu
        have hk' : k ∈ List.map Prod.fst rest := List.mem_map_of_mem Prod.fst hu
        exact hnd.1 hk'
      have hvt : v = t := by
        rcases List.mem_cons.mp hmem with heq | hmem'
        · exact (congrArg Prod.snd heq).symm
        · exact absurd hmem' (hrest t)
      subst hvt
      rw [List.erase_cons_head]
      rw [mapDelete, List.filter_cons]
      simp only [bne_self_eq_false, ite_false, if_neg]
      refine (mapDelete_of_not_mem ?_).symm
      intro hin
      rcases List.mem_map.mp hin with ⟨q, hq, hq1⟩
      refine hrest q.2 ?_
      have hq' : q = (k, q.2) := Prod.ext hq1 rfl
      exact hq' ▸ hq
    · have hmem' : (j, t) ∈ rest := by
        rcases List.mem_cons.mp hmem with heq | h'
        · exact absurd (congrArg Prod.fst heq).symm hk
        · exact h'
      have hne : (((k, v) : String × ℕ) == (j, t)) ≠ true := by
        intro he
        exact hk (congrArg Prod.fst (eq_of_beq he))
      rw [List.erase_cons_tail hne, mapDelete, List.filter_cons]
      have hkj : ((k : String) != j) = true := bne_iff_ne.mpr hk
      simp only [hkj, if_pos]
      rw [ih hnd.2 hmem']
      rfl

theorem pmStop_active (j : String) (s : PMState) :
    (pmStop j s).active = s.active.filter (fun k => k != j) := by
  unfold pmStop
  cases mapGet s.intervals j <;> rfl

theorem pmStop_not_active (j : String) (s : PMState) :
    j ∉ (pmStop j s).active := by
  rw [pmStop_active]
  intro h
  have := (List.mem_filter.mp h).2
  simp at this

theorem pmStop_no_key (j : String) (s : PMState) :
    ∀ t, (j, t) ∉ (pmStop j s).intervals := by
  intro t
  unfold pmStop
  cases hget : mapGet s.intervals j with
  | none => exact mapGet_eq_none hget t
  | some tok =>
    intro h
    exact (mem_mapDelete.mp h).2 rfl

theorem pmStop_inv {s : PMState} (hs : PMInv s) (j : String) : PMInv (pmStop j s) := by
  obtain ⟨hlive, hnd, hact⟩ := hs
  unfold pmStop
  cases hget : mapGet s.intervals j with
  | none =>
    refine ⟨hlive, hnd, ?_⟩
    intro k
    simp only [List.mem_filter, bne_iff_ne, decide_eq_true_eq]
    constructor
    · rintro ⟨hk, _⟩
      exact (hact k).mp hk
    · intro hex
      refine ⟨(hact k).mpr hex, ?_⟩
      rintro rfl
      obtain ⟨t, ht⟩ := hex
      exact mapGet_eq_none hget t ht
  | some tok =>
    have hmem : (j, tok) ∈ s.intervals := mapGet_mem hget
    refine ⟨?_, ?_, ?_⟩
    · show s.live.erase (j, tok) = mapDelete s.intervals j
      rw [hlive]
      exact erase_eq_mapDelete hnd hmem
    · show ((mapDelete s.intervals j).map Prod.fst).Nodup
      have hsub : List.Sublist ((mapDelete s.intervals j).map Prod.fst)
          (s.intervals.map Prod.fst) := (List.filter_sublist s.intervals).map Prod.fst
      exact hsub.nodup hnd
    · intro k
      simp only [List.mem_filter, bne_iff_ne, decide_eq_true_eq]
      constructor
      · rintro ⟨hk, hkj⟩
        obtain ⟨t, ht⟩ := (hact k).mp hk
        exact ⟨t, mem_mapDelete.mpr ⟨ht, hkj⟩⟩
      · rintro ⟨t, ht⟩
        obtain ⟨ht', hkj⟩ := mem_mapDelete.mp ht
        exact ⟨(hact k).mpr ⟨t, ht'⟩, hkj⟩

theorem pmStop_live_no_j {s : PMState} (hs : PMInv s) (j : String) :
    ∀ t, (j, t) ∉ (pmStop j s).live := by
  intro t
  obtain ⟨hlive, hnd, _⟩ := hs
  unfold pmStop
  cases hget : mapGet s.intervals j with
  | none =>
    show (j, t) ∉ s.live
    rw [hlive]
    exact mapGet_eq_none hget t
  | some tok =>
    show (j, t) ∉ s.live.erase (j, tok)
    rw [hlive, erase_eq_mapDelete hnd (mapGet_mem hget)]
    intro h
    exact (mem_mapDelete.mp h).2 rfl

theorem pmStart_inv {s : PMState} (hs : PMInv s) (j : String) : PMInv (pmStart j s) := by
  have h1 := pmStop_inv hs j
  obtain ⟨hlive, hnd, hact⟩ := h1
  have hjkey : j ∉ (pmStop j s).intervals.map Prod.fst := by
    intro hin
    rcases List.mem_map.mp hin with ⟨q, hq, hq1⟩
    have hq' : q = (j, q.2) := Prod.ext hq1 rfl
    exact pmStop_no_key j s q.2 (hq' ▸ hq)
  have hjact : j ∉ (pmStop j s).active := pmStop_not_active j s
  refine ⟨?_, ?_, ?_⟩
  · show (j, (pmStop j s).fresh) :: (pmStop j s).live =
      (j, (pmStop j s).fresh) :: (pmStop j s).intervals
    rw [hlive]
  · show (((j, (pmStop j s).fresh) :: (pmStop j s).intervals).map Prod.fst).Nodup
    rw [List.map_cons]
    exact List.nodup_cons.mpr ⟨hjkey, hnd⟩
  · intro k
    show k ∈ (if j ∈ (pmStop j s).active then (pmStop j s).active
        else j :: (pmStop j s).active) ↔
      ∃ t, (k, t) ∈ (j, (pmStop j s).fresh) :: (pmStop j s).intervals
    rw [if_neg hjact]
    by_cases hk : k = j
    · rw [hk]
      refine ⟨fun _ => ⟨(pmStop j s).fresh, List.mem_cons_self _ _⟩,
        fun _ => List.mem_cons_self _ _⟩
    · rw [List.mem_cons]
      constructor
      · rintro (rfl | hmem)
        · exact absurd rfl hk
        · obtain ⟨t, ht⟩ := (hact k).mp hmem
          exact ⟨t, List.mem_cons_of_mem _ ht⟩
      · rintro ⟨t, ht⟩
        rcases List.mem_cons.mp ht with heq | hmem
        · exact absurd (congrArg Prod.fst heq) hk
        · exact Or.inr ((hact k).mpr ⟨t, hmem⟩)

theorem mem_pmStop_intervals {s : PMState} {p : String × ℕ} {k : String}
    (h : p ∈ (pmStop k s).intervals) : p ∈ s.intervals ∧ p.1 ≠ k := by
  revert h
  unfold pmStop
  cases hget : mapGet s.intervals k with
  | none =>
    intro h
    refine ⟨h, ?_⟩
    intro hpk
    have hp' : p = (k, p.2) := Prod.ext hpk rfl
    exact mapGet_eq_none hget p.2 (hp' ▸ h)
  | some tok =>
    intro h
    have hp' : p = (p.1, p.2) := rfl
    have := mem_mapDelete.mp (hp' ▸ h)
    exact ⟨hp' ▸ this.1, this.2⟩

theorem stopAllAux (ks : List String) :
    ∀ s : PMState, PMInv s → (∀ p ∈ s.intervals, p.1 ∈ ks) →
      PMInv (ks.foldl (fun st j => pmStop j st) s) ∧
      (ks.foldl (fun st j => pmStop j st) s).intervals = [] := by
  induction ks with
  | nil =>
    intro s hs hcov
    refine ⟨hs, ?_⟩
    exact List.eq_nil_iff_forall_not_mem.mpr
      (fun p hp => absurd (hcov p hp) (List.not_mem_nil _))
  | cons k ks ih =>
    intro s hs hcov
    simp only [List.foldl_cons]
    apply ih (pmStop k s) (pmStop_inv hs k)
    intro p hp
    obtain ⟨hp', hpk⟩ := mem_pmStop_intervals hp
    rcases List.mem_cons.mp (hcov p hp') with heq | hmem
    · exact absurd heq hpk
    · exact hmem

theorem pmStopAll_inv {s : PMState} (hs : PMInv s) :
    PMInv (pmStopAll s) ∧ (pmStopAll s).intervals = [] :=
  stopAllAux (s.intervals.map Prod.fst) s hs
    (fun p hp => List.mem_map_of_mem Prod.fst hp)

theorem pmRun_inv (ops : List PMOp) : PMInv (pmRun ops) := by
  have main : ∀ l : List PMOp, ∀ s : PMState, PMInv s → PMInv (l.foldl pmApply s) := by
    intro l
    induction l with
    | nil => intro s hs; exact hs
    | cons op l ih =>
      intro s hs
      simp only [List.foldl_cons]
      apply ih
      cases op with
      | start j => exact pmStart_inv hs j
      | stop j => exact pmStop_inv hs j
      | stopAll => exact (pmStopAll_inv hs).1
  exact main ops pmInit ⟨rfl, List.nodup_nil, by intro j; simp [pmInit]⟩

/-- C8: in every state the polling manager can reach, each jobId has at most
one live polling interval; starting a job makes isPolling true for it and
stopping it makes isPolling false and clears its interval; stopAll clears
every interval and leaves nothing polling; and starts/stops of a different
jobId do not affect a job's polling status. -/
theorem C8_polling_manager_singleton (ops : List PMOp) :
    (∀ j : String, (((pmRun ops).live.map Prod.fst).count j) ≤ 1) ∧
    (∀ j : String, isPolling j (pmStart j (pmRun ops)) = true) ∧
    (∀ j : String, isPolling j (pmStop j (pmRun ops)) = false ∧
      ∀ t, (j, t) ∉ (pmStop j (pmRun ops)).live) ∧
    ((pmStopAll (pmRun ops)).live = [] ∧
      ∀ j : String, isPolling j (pmStopAll (pmRun ops)) = false) ∧
    (∀ j k : String, j ≠ k →
      isPolling j (pmStop k (pmRun ops)) = isPolling j (pmRun ops) ∧
      isPolling j (pmStart k (pmRun ops)) = isPolling j (pmRun ops)) := by
  have hinv := pmRun_inv ops
  refine ⟨?_, ?_, ?_, ?_, ?_⟩
  · intro j
    obtain ⟨hlive, hnd, _⟩ := hinv
    rw [hlive]
    exact List.nodup_iff_count_le_one.mp hnd j
  · intro j
    show decide (j ∈ (pmStart j (pmRun ops)).active) = true
    rw [decide_eq_true_eq]
    show j ∈ (if j ∈ (pmStop j (pmRun ops)).active then (pmStop j (pmRun ops)).active
      else j :: (pmStop j (pmRun ops)).active)
    rw [if_neg (pmStop_not_active j (pmRun ops))]
    exact List.mem_cons_self _ _
  · intro j
    refine ⟨?_, pmStop_live_no_j hinv j⟩
    show decide (j ∈ (pmStop j (pmRun ops)).active) = false
    rw [decide_eq_false_iff_not]
    exact pmStop_not_active j (pmRun ops)
  · obtain ⟨hall, hnil⟩ := pmStopAll_inv hinv
    obtain ⟨hlive, _, hact⟩ := hall
    refine ⟨hlive.trans hnil, ?_⟩
    intro j
    rw [isPolling, decide_eq_false_iff_not]
    intro hj
    obtain ⟨t, ht⟩ := (hact j).mp hj
    rw [hnil] at ht
    exact List.not_mem_nil _ ht
  · intro j k hjk
    constructor
    · show decide (j ∈ (pmStop k (pmRun ops)).active) = decide (j ∈ (pmRun ops).active)
      apply decide_eq_decide.mpr
      rw [pmStop_active]
      simp only [List.mem_filter, bne_iff_ne, decide_eq_true_eq]
      exact ⟨fun h => h.1, fun h => ⟨h, hjk⟩⟩
    · show decide (j ∈ (pmStart k (pmRun ops)).active) = decide (j ∈ (pmRun ops).active)
      have hstep : j ∈ (pmStart k (pmRun ops)).active ↔ j ∈ (pmRun ops).active := by
        show j ∈ (if k ∈ (pmStop k (pmRun ops)).active then (pmStop k (pmRun ops)).active
          else k :: (pmStop k (pmRun ops)).active) ↔ _
        rw [if_neg (pmStop_not_active k (pmRun ops))]
        rw [List.mem_cons]
        rw [pmStop_active]
        simp only [List.mem_filter, bne_iff_ne, decide_eq_true_eq]
        constructor
        · rintro (rfl | ⟨h, _⟩)
          · exact absurd rfl hjk
          · exact h
        · intro h
          exact Or.inr ⟨h, hjk⟩
      exact decide_eq_decide.mpr hstep

/-- Witness for C8 on the concrete run [start a, start b, stop a]: job b still
polls one live interval, job a does not poll. -/
theorem C8_polling_manager_singleton_witness :
    isPolling "a" (pmStop "a" (pmRun [PMOp.start "a", PMOp.start "b"])) = false ∧
    isPolling "b" (pmStart "b" (pmRun [PMOp.start "a"])) = true :=
  ⟨(C8_polling_manager_singleton [PMOp.start "a", PMOp.start "b"]).2.2.1 "a" |>.1,
   (C8_polling_manager_singleton [PMOp.start "a"]).2.1 "b"⟩

end LLMSpec
